import Mathlib

/-!
# Verification of a Markov-chain text generator

Shallow embedding of `MC_Text_Generator.py`: tokenizer, distribution
builders, Markov model builder (transition table, beta, omega) and the
sampler (`weighted_choice`, `get_next_word`, `generate_random_text`).

Modelling choices:
* Python dicts become insertion-ordered association lists
  (`List (α × β)`); assignment updates a present key in place and
  appends an absent key at the end, exactly as CPython dicts do.
* Probabilities are exact rationals (`ℚ`) in place of floats.
* Randomness (`random.random()`) is an explicit stream `rs : Nat → ℚ`
  of drawn values, one per `weighted_choice` call.
* Fallible spots return `Option`: `weighted_choice` on an empty dict
  (Python raises `UnboundLocalError` at `return token`) is `none`, and
  `get_next_word` on a state whose stored transition counts are nonempty
  but sum to zero (Python raises `ZeroDivisionError`) is `none`.
-/

set_option autoImplicit false

/-! ## Association-list dictionary primitives (CPython dict semantics) -/

/-- Lookup of a key in an insertion-ordered association list (`d[k]` / `k in d`). -/
def dlookup {α β : Type} [DecidableEq α] (k : α) : List (α × β) → Option β
  | [] => none
  | (a, b) :: rest => if a = k then some b else dlookup k rest

/-- Dict assignment `d[k] = v`: replace in place if the key is present,
append at the end otherwise. -/
def dupdate {α β : Type} [DecidableEq α] (k : α) (v : β) : List (α × β) → List (α × β)
  | [] => [(k, v)]
  | (a, b) :: rest => if a = k then (a, v) :: rest else (a, b) :: dupdate k v rest

/-- `defaultdict(int)` increment `d[k] += 1`. -/
def dincr {α : Type} [DecidableEq α] (k : α) : List (α × Nat) → List (α × Nat)
  | [] => [(k, 1)]
  | (a, c) :: rest => if a = k then (a, c + 1) :: rest else (a, c) :: dincr k rest

/-- Nested `defaultdict(lambda: defaultdict(int))` increment `d[k1][k2] += 1`. -/
def dincr2 {α β : Type} [DecidableEq α] [DecidableEq β] (k1 : α) (k2 : β) :
    List (α × List (β × Nat)) → List (α × List (β × Nat))
  | [] => [(k1, [(k2, 1)])]
  | (a, inner) :: rest =>
      if a = k1 then (a, dincr k2 inner) :: rest else (a, inner) :: dincr2 k1 k2 rest

/-! ## Tokenizer

`tokenize` lower-cases the text and applies
`re.findall(r"[A-Za-z]+(?:[-'][A-Za-z]+)*|\d+|[\"'()\-\.,!?;:]", ...)`.
The regex scan is embedded as a fuel-indexed scanner over the character
list; every step consumes at least one character, so fuel equal to the
length of the input is never exhausted. -/

/-- The ASCII apostrophe character. -/
def squote : Char := Char.ofNat 39

/-- The ASCII double-quote character. -/
def dquote : Char := Char.ofNat 34

/-- The single-character punctuation alternatives of the token regex. -/
def punctChars : List Char :=
  [dquote, squote, '(', ')', '-', '.', ',', '!', '?', ';', ':']

/-- The greedy `(?:[-'][A-Za-z]+)*` tail of the word alternative: repeatedly
consume a hyphen or apostrophe followed by a nonempty letter run. Returns the
consumed characters and the rest of the input. -/
def wordExtend : Nat → List Char → List Char × List Char
  | fuel + 1, c :: c2 :: rest =>
      if (c == '-' || c == squote) && c2.isAlpha then
        let run := (c2 :: rest).takeWhile Char.isAlpha
        let rest2 := (c2 :: rest).dropWhile Char.isAlpha
        let pr := wordExtend fuel rest2
        (c :: (run ++ pr.1), pr.2)
      else ([], c :: c2 :: rest)
  | _, cs => ([], cs)

/-- One left-to-right `re.findall` scan: at each position try the word
alternative, then the digit-run alternative, then the single-punctuation
alternative; skip any other character. -/
def tokenizeAux : Nat → List Char → List (List Char)
  | fuel + 1, c :: rest =>
      if c.isAlpha then
        let run := (c :: rest).takeWhile Char.isAlpha
        let rest1 := (c :: rest).dropWhile Char.isAlpha
        let pr := wordExtend fuel rest1
        (run ++ pr.1) :: tokenizeAux fuel pr.2
      else if c.isDigit then
        let run := (c :: rest).takeWhile Char.isDigit
        let rest1 := (c :: rest).dropWhile Char.isDigit
        run :: tokenizeAux fuel rest1
      else if c ∈ punctChars then
        [c] :: tokenizeAux fuel rest
      else
        tokenizeAux fuel rest
  | _, _ => []

/-- `tokenize(text)`: lowercase, then extract words (with internal single
hyphens/apostrophes), digit runs and listed punctuation, dropping all else. -/
def tokenize (text : String) : List String :=
  let cs := text.toList.map Char.toLower
  (tokenizeAux cs.length cs).map (fun l => String.mk l)

/-! ## Distribution builder -/

/-- `distribution_frequencies(items)`: count occurrences of each distinct item
(insert-or-increment in first-occurrence order). -/
def distribution_frequencies {α : Type} [DecidableEq α] (items : List α) : List (α × Nat) :=
  items.foldl (fun m t => dincr t m) []

/-- `word_frequencies(text)`: `Counter(tokenize(text))`, i.e. token counts in
first-occurrence order. -/
def word_frequencies (text : String) : List (String × Nat) :=
  distribution_frequencies (tokenize text)

/-- `distribution_probabilities(freqs)`: divide each count by the total; when
the total is zero every item maps to `0.0` instead of raising. -/
def distribution_probabilities {α : Type} (freqs : List (α × Nat)) : List (α × ℚ) :=
  let total : Nat := (freqs.map (fun p => p.2)).sum
  freqs.map (fun p => (p.1, if total = 0 then 0 else (p.2 : ℚ) / (total : ℚ)))

/-! ## Markov model builder -/

/-- A Markov state: a tuple of `order` tokens. -/
abbrev MState := List String

/-- The transition counts out of one state. -/
abbrev Transitions := List (String × Nat)

/-- The transition table: state to next-token counts. -/
abbrev MarkovModel := List (MState × Transitions)

/-- `ngram_frequencies(text, order)`: pad the token list with `order` start
markers and one end marker, then for each `i < len(tokens) - order` increment
the count of (`tokens[i:i+order]`, `tokens[i+order]`). The `""` default of
`getD` is never used: `i + order < len(tokens)` throughout. -/
def ngram_frequencies (text : String) (order : Nat) : MarkovModel :=
  let tokens := List.replicate order "*S*" ++ tokenize text ++ ["*E*"]
  (List.range (tokens.length - order)).foldl
    (fun freqs i => dincr2 ((tokens.drop i).take order) (tokens.getD (i + order) "") freqs)
    []

/-- `build_markov_model(text, order)` just delegates to `ngram_frequencies`. -/
def build_markov_model (text : String) (order : Nat) : MarkovModel :=
  ngram_frequencies text order

/-- `beta_frequencies(text, order)`: the first `order` tokens of the padded
sequence, counted once. -/
def beta_frequencies (text : String) (order : Nat) : List (MState × Nat) :=
  let tokens := List.replicate order "*S*" ++ tokenize text
  distribution_frequencies [tokens.take order]

/-- `beta_probabilities(beta_freqs)`: normalize the start-state counts. -/
def beta_probabilities (beta_freqs : List (MState × Nat)) : List (MState × ℚ) :=
  distribution_probabilities beta_freqs

/-- `omega_frequencies(markov_model)`: for every state of the table, its count
of transitions to `*E*`, or `0` when it has none. -/
def omega_frequencies (markov_model : MarkovModel) : List (MState × Nat) :=
  markov_model.map (fun p => (p.1, (dlookup "*E*" p.2).getD 0))

/-- `omega_probabilities(omega_freqs)`: normalize the ending counts. -/
def omega_probabilities (omega_freqs : List (MState × Nat)) : List (MState × ℚ) :=
  distribution_probabilities omega_freqs

/-! ## Sampler -/

/-- The cumulative loop of `weighted_choice`: accumulate the probabilities in
mapping order and return the first key whose running total reaches `r`; when
the loop exhausts (rounding, or weights summing below `r`) fall back to the
last key iterated. An empty list yields `none` (Python: `UnboundLocalError`). -/
def wcGo {α : Type} (r : ℚ) (cum : ℚ) : List (α × ℚ) → Option α
  | [] => none
  | (tok, p) :: rest =>
      if r ≤ cum + p then some tok
      else
        match wcGo r (cum + p) rest with
        | some t => some t
        | none => some tok

/-- `weighted_choice(options_dict)` at drawn value `r`. -/
def weighted_choice {α : Type} (options_dict : List (α × ℚ)) (r : ℚ) : Option α :=
  wcGo r 0 options_dict

/-- `get_next_word(state, model, omega_probs)` at drawn value `r`: normalize
this state's transition counts (empty when the state is absent), overwrite/add
the `*E*` entry with the state's omega probability when it is positive, and
sample. The guard reproduces Python's `ZeroDivisionError` (`none`) when the
stored counts are nonempty but sum to zero. -/
def get_next_word (state : MState) (model : MarkovModel) (omega_probs : List (MState × ℚ))
    (r : ℚ) : Option String :=
  let end_prob : ℚ := (dlookup state omega_probs).getD 0
  let transitions : Transitions := (dlookup state model).getD []
  let total : Nat := (transitions.map (fun p => p.2)).sum
  if transitions ≠ [] ∧ total = 0 then none
  else
    let base := transitions.map (fun p => (p.1, (p.2 : ℚ) / (total : ℚ)))
    let dist := if 0 < end_prob then dupdate "*E*" end_prob base else base
    weighted_choice dist r

/-- The `for _ in range(max_words)` loop of `generate_random_text`: `fuel`
iterations remain, `i` indexes the random stream, `acc` holds the generated
tokens in reverse. -/
def genLoop (model : MarkovModel) (omega_probs : List (MState × ℚ)) (rs : Nat → ℚ) :
    Nat → Nat → MState → List String → Option (List String)
  | 0, _, _, acc => some acc.reverse
  | fuel + 1, i, st, acc =>
      match get_next_word st model omega_probs (rs i) with
      | none => none
      | some tok =>
          if tok = "*E*" then some acc.reverse
          else genLoop model omega_probs rs fuel (i + 1) (st.drop 1 ++ [tok]) (tok :: acc)

/-- `generate_random_text(model, beta_probs, omega_probs, order, max_words)`:
draw a start state from `beta_probs`, then up to `max_words` times draw a next
token, stopping at `*E*`; the state advances by dropping its oldest token and
appending the new one. Returns the generated token sequence (the Python code
joins it with spaces for display); the `order` argument is unused by the
Python function body as well. -/
def generate_random_text (model : MarkovModel) (beta_probs : List (MState × ℚ))
    (omega_probs : List (MState × ℚ)) (order : Nat) (max_words : Nat) (rs : Nat → ℚ) :
    Option (List String) :=
  match weighted_choice beta_probs (rs 0) with
  | none => none
  | some st => genLoop model omega_probs rs max_words 1 st []

/-! ## Spec-side definitions (written from the specification's words, for
refinement comparisons against the embedded code) -/

/-- Spec side, `weighted_choice`: the first key, in mapping order, whose
cumulative probability is at least `r`. -/
def first_cum_ge {α : Type} (r : ℚ) (cum : ℚ) : List (α × ℚ) → Option α
  | [] => none
  | (tok, p) :: rest => if cum + p ≥ r then some tok else first_cum_ge r (cum + p) rest

/-- Spec side, `get_next_word`: the combined candidate distribution — the
state's transition counts each normalized by the state's total (no entries if
the state is absent), with an `*E*` entry of weight `omega_probs[state]`
added, unrescaled, exactly when that weight is positive. -/
def candidate_dist (state : MState) (model : MarkovModel)
    (omega_probs : List (MState × ℚ)) : List (String × ℚ) :=
  let transitions : Transitions := (dlookup state model).getD []
  let total : Nat := (transitions.map (fun p => p.2)).sum
  let normalized := transitions.map (fun p => (p.1, (p.2 : ℚ) / (total : ℚ)))
  let end_prob : ℚ := (dlookup state omega_probs).getD 0
  if 0 < end_prob then dupdate "*E*" end_prob normalized else normalized

/-- Spec side, model building: slide a window of length `k` across a padded
sequence, stopping before running past the final token; each element pairs the
window (the state) with the token immediately following it. -/
def slideWindows (k : Nat) : List String → List (List String × String)
  | [] => []
  | x :: xs =>
      if k ≤ xs.length then
        ((x :: xs).take k, (x :: xs).getD k "") :: slideWindows k xs
      else []

/-- Spec side, model building: count each (state, next-token) observation. -/
def countPairs (pairs : List (List String × String)) : MarkovModel :=
  pairs.foldl (fun m p => dincr2 p.1 p.2 m) []

/-- The sample text of the tokenizer test, `"Hello, world!  It's 123 fish."`
(the apostrophe is spelled via `squote`). -/
def sampleText : String := "Hello, world!  It" ++ String.mk [squote] ++ "s 123 fish."

/-- The expected token `"it's"`. -/
def itsToken : String := "it" ++ String.mk [squote] ++ "s"

/-! ## Window-sliding: the index loop of `ngram_frequencies` enumerates
exactly the spec's slid windows -/

theorem slide_eq (k : Nat) (l : List String) :
    (List.range (l.length - k)).map (fun i => ((l.drop i).take k, l.getD (i + k) "")) =
      slideWindows k l := by
  induction l with
  | nil => simp [slideWindows]
  | cons x xs ih =>
      by_cases h : k ≤ xs.length
      · have hlen : (x :: xs).length - k = (xs.length - k) + 1 := by
          simp only [List.length_cons]; omega
        rw [hlen, List.range_succ_eq_map, List.map_cons, List.map_map]
        simp only [slideWindows, if_pos h]
        congr 1
        · simp
        · rw [← ih]
          apply List.map_congr_left
          intro i _
          simp only [Function.comp_apply, Nat.succ_eq_add_one, List.drop_succ_cons]
          congr 1
          have : i + 1 + k = (i + k) + 1 := by omega
          rw [this, List.getD_cons_succ]
      · have hlen : (x :: xs).length - k = 0 := by
          simp only [List.length_cons]; omega
        rw [hlen]
        simp [slideWindows, h]

/-- C3: model building prepends exactly `k` copies of `*S*` and appends one
`*E*`, then counts each length-`k` window as a state with the immediately
following token as the observed next-token; in particular, for order 1 and
the text `"a b"` the transition table is exactly
`{("*S*",): {"a": 1}, ("a",): {"b": 1}, ("b",): {"*E*": 1}}`. -/
theorem ngram_frequencies_spec :
    (∀ (text : String) (k : Nat),
      ngram_frequencies text k =
        countPairs (slideWindows k (List.replicate k "*S*" ++ tokenize text ++ ["*E*"]))) ∧
    ngram_frequencies "a b" 1 =
      [(["*S*"], [("a", 1)]), (["a"], [("b", 1)]), (["b"], [("*E*", 1)])] := by
  constructor
  · intro text k
    unfold ngram_frequencies countPairs
    rw [← slide_eq k, List.foldl_map]
  · decide

/-- C8: `tokenize` lower-cases its input, extracts words (with internal single
hyphens or apostrophes), digit runs and listed punctuation in order, yields
`[]` on empty input, and on `"Hello, world!  It's 123 fish."` yields exactly
`["hello", ",", "world", "!", "it's", "123", "fish", "."]`. -/
theorem tokenize_example :
    tokenize "" = [] ∧
    tokenize sampleText = ["hello", ",", "world", "!", itsToken, "123", "fish", "."] := by
  constructor
  · rfl
  · decide

/-- C7 counterexample: building a model with order `0` does not fail with an
invalid-argument signal — `ngram_frequencies "a" 0` silently returns an
ordinary transition table. -/
theorem ngram_order_zero_no_error :
    ngram_frequencies "a" 0 = [([], [("a", 1), ("*E*", 1)])] := by decide

/-- C7 amended: `weighted_choice` on an empty distribution signals
(`none`, the embedded `UnboundLocalError`) rather than silently returning a
token; but building a model with order ≤ 0 is not validated — at order `0`
the builder silently produces a model instead of an invalid-argument
failure. -/
theorem invalid_config_behavior :
    (∀ r : ℚ, weighted_choice ([] : List (String × ℚ)) r = none) ∧
    ngram_frequencies "a" 0 = [([], [("a", 1), ("*E*", 1)])] := by
  exact ⟨fun _ => rfl, by decide⟩

/-- A two-state transition table in which each state transitions exactly once,
to `*E*`. -/
def cexModel : MarkovModel := [(["a"], [("*E*", 1)]), (["b"], [("*E*", 1)])]

/-- C6 counterexample: in `cexModel`, state `["a"]` is observed exactly once
transitioning to `*E*` out of one total transition, yet its omega probability
is `1/2`, not `1.0` — omega probabilities are normalized across all states,
not per state. -/
theorem omega_per_state_cex :
    dlookup ["a"] cexModel = some [("*E*", 1)] ∧
    dlookup ["a"] (omega_probabilities (omega_frequencies cexModel)) = some (1/2) ∧
    ¬ dlookup ["a"] (omega_probabilities (omega_frequencies cexModel)) = some 1 := by
  have h : omega_frequencies cexModel = [(["a"], 1), (["b"], 1)] := by decide
  have h2 : dlookup ["a"] (omega_probabilities (omega_frequencies cexModel)) = some (1/2) := by
    rw [omega_probabilities, h]
    simp [distribution_probabilities, dlookup]
  refine ⟨by decide, h2, ?_⟩
  rw [h2]
  intro hc
  have h3 : (1 : ℚ)/2 = 1 := by injection hc
  norm_num at h3

/-! ## The sampling loop: cumulative scan and last-key fallback -/

/-- On a nonempty cons cell the cumulative loop always returns some key. -/
theorem wcGo_cons_isSome {α : Type} (r cum : ℚ) (t : α) (p : ℚ) (rest : List (α × ℚ)) :
    (wcGo r cum ((t, p) :: rest)).isSome = true := by
  rw [wcGo]
  split
  · rfl
  · cases hw : wcGo r (cum + p) rest <;> simp

/-- A nonempty distribution never makes `weighted_choice` fail. -/
theorem weighted_choice_ne_none {α : Type} (dist : List (α × ℚ)) (r : ℚ) (h : dist ≠ []) :
    weighted_choice dist r ≠ none := by
  match dist with
  | [] => exact absurd rfl h
  | (t, p) :: rest =>
      have := wcGo_cons_isSome r 0 t p rest
      rw [weighted_choice]
      intro hc
      rw [hc] at this
      simp at this

/-- On a one-entry distribution `weighted_choice` returns the single key for
every drawn value: either its cumulative weight reaches `r`, or the fallback
returns it as the last key iterated. -/
theorem weighted_choice_singleton {α : Type} (x : α) (p : ℚ) (r : ℚ) :
    weighted_choice [(x, p)] r = some x := by
  rw [weighted_choice, wcGo]
  split <;> rfl

/-- Spec side, `weighted_choice` overall: the first key whose cumulative
probability reaches `r`, with the last key of the mapping as fallback. -/
def choose_with_fallback {α : Type} (r : ℚ) (cum : ℚ) (dist : List (α × ℚ)) : Option α :=
  match first_cum_ge r cum dist with
  | some t => some t
  | none => (dist.map (fun p => p.1)).getLast?

/-- The cumulative loop equals the spec's description: the first key whose
cumulative probability reaches `r`, with the last key as fallback. -/
theorem wcGo_eq_first_cum {α : Type} (r : ℚ) (l : List (α × ℚ)) :
    ∀ cum, wcGo r cum l = choose_with_fallback r cum l := by
  induction l with
  | nil => intro cum; rfl
  | cons hd rest ih =>
      intro cum
      obtain ⟨t, p⟩ := hd
      unfold choose_with_fallback
      rw [wcGo, first_cum_ge]
      by_cases h : r ≤ cum + p
      · rw [if_pos h, if_pos (ge_iff_le.mpr h)]
      · rw [if_neg h, if_neg (fun hc => h (ge_iff_le.mp hc))]
        rw [ih (cum + p)]
        unfold choose_with_fallback
        cases hf : first_cum_ge r (cum + p) rest with
        | some u => simp only [hf]
        | none =>
            simp only [hf]
            cases rest with
            | nil => rfl
            | cons q rest2 =>
                simp only [List.map_cons, List.getLast?_cons_cons]
                cases hg : (q.1 :: rest2.map (fun p => p.1)).getLast? with
                | none => exact absurd hg (by simp)
                | some v => rfl

/-- C4: for every nonempty distribution and drawn value `r ∈ [0,1)`,
`weighted_choice` returns the first key, in mapping order, whose cumulative
probability is at least `r`, falling back to the last key iterated when the
loop exhausts; in particular on `{"x": 1.0}` it always returns `"x"`. -/
theorem weighted_choice_first_cum {α : Type} (dist : List (α × ℚ)) (r : ℚ)
    (hne : dist ≠ []) (h0 : 0 ≤ r) (h1 : r < 1) :
    weighted_choice dist r = choose_with_fallback r 0 dist ∧
    weighted_choice [("x", (1 : ℚ))] r = some "x" := by
  refine ⟨wcGo_eq_first_cum r dist 0, ?_⟩
  exact weighted_choice_singleton "x" 1 r

/-- C4 witness: the theorem applied to the singleton distribution
`{"a": 1}` and the drawn value `0`. -/
theorem weighted_choice_first_cum_witness :
    ([(("a" : String), (1 : ℚ))] ≠ []) ∧ ((0 : ℚ) ≤ 0) ∧ ((0 : ℚ) < 1) ∧
    weighted_choice [(("a" : String), (1 : ℚ))] 0 =
      choose_with_fallback (0 : ℚ) 0 [(("a" : String), (1 : ℚ))] :=
  ⟨by simp, le_refl 0, by norm_num,
   (weighted_choice_first_cum [("a", 1)] 0 (by simp) (le_refl 0) (by norm_num)).1⟩

/-! ## Normalization: values of `distribution_probabilities` -/

/-- Incrementing one key raises the total count by exactly one. -/
theorem dincr_sum {α : Type} [DecidableEq α] (k : α) (m : List (α × Nat)) :
    ((dincr k m).map (fun p => p.2)).sum = (m.map (fun p => p.2)).sum + 1 := by
  induction m with
  | nil => rfl
  | cons hd rest ih =>
      obtain ⟨a, c⟩ := hd
      rw [dincr]
      by_cases h : a = k
      · rw [if_pos h]; simp; omega
      · rw [if_neg h]; simp only [List.map_cons, List.sum_cons, ih]; omega

/-- The counts produced by `distribution_frequencies` total the number of
items counted. -/
theorem distribution_frequencies_sum {α : Type} [DecidableEq α] (items : List α) :
    ((distribution_frequencies items).map (fun p => p.2)).sum = items.length := by
  suffices h : ∀ (acc : List (α × Nat)),
      ((items.foldl (fun m t => dincr t m) acc).map (fun p => p.2)).sum =
        (acc.map (fun p => p.2)).sum + items.length by
    simpa using h []
  induction items with
  | nil => intro acc; simp
  | cons x rest ih =>
      intro acc
      simp only [List.foldl_cons, List.length_cons, ih (dincr x acc), dincr_sum]
      omega

/-- Summing `count/t` over the entries equals the summed counts over `t`. -/
theorem sum_map_div {α : Type} (l : List (α × Nat)) (t : ℚ) :
    (l.map (fun p => (p.2 : ℚ) / t)).sum = (((l.map (fun p => p.2)).sum : Nat) : ℚ) / t := by
  induction l with
  | nil => simp
  | cons hd rest ih =>
      simp only [List.map_cons, List.sum_cons, ih]
      push_cast
      rw [add_div]

/-- When the counts have nonzero total, the normalized values sum to `1`. -/
theorem distribution_probabilities_sum_one {α : Type} (freqs : List (α × Nat))
    (h : (freqs.map (fun p => p.2)).sum ≠ 0) :
    ((distribution_probabilities freqs).map (fun p => p.2)).sum = 1 := by
  unfold distribution_probabilities
  simp only [List.map_map, Function.comp_def, if_neg h]
  rw [sum_map_div]
  exact div_self (by exact_mod_cast h)

/-- C5: `distribution_probabilities` keeps exactly the input's keys; its
values sum to `1` whenever the input counts have nonzero total, and are all
`0.0` (not an error) when the total is zero; consequently, for any text with
at least one token, the token probabilities derived from its token
frequencies sum to `1`. -/
theorem distribution_probabilities_spec {α : Type} (freqs : List (α × Nat)) :
    ((distribution_probabilities freqs).map (fun p => p.1) = freqs.map (fun p => p.1)) ∧
    ((freqs.map (fun p => p.2)).sum ≠ 0 →
      ((distribution_probabilities freqs).map (fun p => p.2)).sum = 1) ∧
    ((freqs.map (fun p => p.2)).sum = 0 →
      ∀ q ∈ distribution_probabilities freqs, q.2 = 0) ∧
    (∀ text : String, tokenize text ≠ [] →
      ((distribution_probabilities (word_frequencies text)).map (fun p => p.2)).sum = 1) := by
  refine ⟨?_, distribution_probabilities_sum_one freqs, ?_, ?_⟩
  · unfold distribution_probabilities
    simp [List.map_map, Function.comp]
  · intro h q hq
    unfold distribution_probabilities at hq
    simp only [List.mem_map] at hq
    obtain ⟨p, -, rfl⟩ := hq
    simp [if_pos h]
  · intro text htext
    apply distribution_probabilities_sum_one
    rw [word_frequencies, distribution_frequencies_sum]
    intro hlen
    exact htext (List.length_eq_zero.mp hlen)

/-- C5 witness: the theorem applied to the concrete counts `{"a": 1, "b": 3}`
and to the text `"a b"`. -/
theorem distribution_probabilities_spec_witness :
    ((([("a", 1), ("b", 3)] : List (String × Nat)).map (fun p => p.2)).sum ≠ 0) ∧
    ((distribution_probabilities [("a", 1), ("b", 3)]).map (fun p => p.2)).sum = 1 ∧
    (tokenize "a b" ≠ []) ∧
    ((distribution_probabilities (word_frequencies "a b")).map (fun p => p.2)).sum = 1 :=
  ⟨by decide, (distribution_probabilities_spec [("a", 1), ("b", 3)]).2.1 (by decide),
   by decide, (distribution_probabilities_spec ([] : List (String × Nat))).2.2.2 "a b" (by decide)⟩

/-! ## Lookup lemmas for mapped association lists -/

/-- Mapping only the values commutes with lookup. -/
theorem dlookup_map_snd {α β γ : Type} [DecidableEq α] (f : β → γ) (m : List (α × β)) (s : α) :
    dlookup s (m.map (fun p => (p.1, f p.2))) = (dlookup s m).map f := by
  induction m with
  | nil => rfl
  | cons hd rest ih =>
      obtain ⟨a, b⟩ := hd
      rw [List.map_cons, dlookup, dlookup]
      by_cases h : a = s
      · rw [if_pos h, if_pos h]; rfl
      · rw [if_neg h, if_neg h, ih]

/-- In a list with no duplicate keys, membership determines the lookup. -/
theorem dlookup_of_mem_nodup {α β : Type} [DecidableEq α] {m : List (α × β)} {s : α} {v : β}
    (hnd : (m.map (fun p => p.1)).Nodup) (hmem : (s, v) ∈ m) : dlookup s m = some v := by
  induction m with
  | nil => cases hmem
  | cons hd rest ih =>
      obtain ⟨a, b⟩ := hd
      rw [List.map_cons, List.nodup_cons] at hnd
      rcases List.mem_cons.mp hmem with heq | hmem2
      · obtain ⟨rfl, rfl⟩ := Prod.mk.injEq .. ▸ heq
        rw [dlookup, if_pos rfl]
      · rw [dlookup]
        by_cases h : a = s
        · exfalso
          apply hnd.1
          rw [h]
          exact List.mem_map.mpr ⟨(s, v), hmem2, rfl⟩
        · rw [if_neg h]
          exact ih hnd.2 hmem2

/-- Looking a key up in a normalized distribution: the count found in the
frequency table, divided by the total (or `0` for a zero total). -/
theorem dlookup_distribution_probabilities {α : Type} [DecidableEq α]
    (freqs : List (α × Nat)) (s : α) :
    dlookup s (distribution_probabilities freqs) =
      (dlookup s freqs).map
        (fun (c : Nat) => if (freqs.map (fun p => p.2)).sum = 0 then (0 : ℚ)
                  else (c : ℚ) / ((((freqs.map (fun p => p.2)).sum : Nat)) : ℚ)) := by
  unfold distribution_probabilities
  exact dlookup_map_snd
    (fun (c : Nat) => if (freqs.map (fun p => p.2)).sum = 0 then (0 : ℚ)
              else (c : ℚ) / ((((freqs.map (fun p => p.2)).sum : Nat)) : ℚ))
    freqs s

/-- C6 amended: `omega_frequencies` has exactly the table's states as keys,
each mapped to its count of transitions to `*E*` (`0` when absent); after
normalization a state that never reaches `*E*` has omega probability exactly
`0.0`, and a state observed exactly once transitioning to `*E*` has omega
probability `1.0` provided that transition is the table's only end
transition (total end count `1`, as always holds for a model built from a
single text) — normalization is across all states, not per state. -/
theorem omega_frequencies_spec (model : MarkovModel)
    (hnd : (model.map (fun p => p.1)).Nodup) :
    ((omega_frequencies model).map (fun p => p.1) = model.map (fun p => p.1)) ∧
    (∀ s tr, (s, tr) ∈ model →
      dlookup s (omega_frequencies model) = some ((dlookup "*E*" tr).getD 0)) ∧
    (∀ s tr, (s, tr) ∈ model → dlookup "*E*" tr = none →
      dlookup s (omega_probabilities (omega_frequencies model)) = some 0) ∧
    (∀ s tr, (s, tr) ∈ model → dlookup "*E*" tr = some 1 →
      ((omega_frequencies model).map (fun p => p.2)).sum = 1 →
      dlookup s (omega_probabilities (omega_frequencies model)) = some 1) := by
  have hkeys : (omega_frequencies model).map (fun p => p.1) = model.map (fun p => p.1) := by
    simp [omega_frequencies, List.map_map, Function.comp_def]
  have hfreq : ∀ s tr, (s, tr) ∈ model →
      dlookup s (omega_frequencies model) = some ((dlookup "*E*" tr).getD 0) := by
    intro s tr hmem
    rw [omega_frequencies, dlookup_map_snd (fun tr2 => (dlookup "*E*" tr2).getD 0) model s,
      dlookup_of_mem_nodup hnd hmem]
    rfl
  refine ⟨hkeys, hfreq, ?_, ?_⟩
  · intro s tr hmem hE
    have h0 : dlookup s (omega_frequencies model) = some 0 := by
      rw [hfreq s tr hmem, hE]; rfl
    rw [omega_probabilities, dlookup_distribution_probabilities, h0, Option.map_some']
    congr 1
    split
    · rfl
    · simp
  · intro s tr hmem hE hsum
    have h1 : dlookup s (omega_frequencies model) = some 1 := by
      rw [hfreq s tr hmem, hE]; rfl
    rw [omega_probabilities, dlookup_distribution_probabilities, h1, Option.map_some', hsum]
    norm_num

/-- C6 amended witness: the theorem applied to a table in which `["a"]` holds
the single end transition and `["b"]` never ends. -/
theorem omega_frequencies_spec_witness :
    ((([(["a"], [("*E*", 1)]), (["b"], [("x", 2)])] : MarkovModel).map (fun p => p.1)).Nodup) ∧
    dlookup ["b"]
      (omega_probabilities (omega_frequencies [(["a"], [("*E*", 1)]), (["b"], [("x", 2)])])) =
        some 0 ∧
    dlookup ["a"]
      (omega_probabilities (omega_frequencies [(["a"], [("*E*", 1)]), (["b"], [("x", 2)])])) =
        some 1 :=
  ⟨by decide,
   (omega_frequencies_spec [(["a"], [("*E*", 1)]), (["b"], [("x", 2)])] (by decide)).2.2.1
     ["b"] [("x", 2)] (by decide) (by decide),
   (omega_frequencies_spec [(["a"], [("*E*", 1)]), (["b"], [("x", 2)])] (by decide)).2.2.2
     ["a"] [("*E*", 1)] (by decide) (by decide) (by decide)⟩

/-! ## `get_next_word` and the spec's candidate distribution -/

/-- C2: with the data-model invariant that stored transition counts are
positive, `get_next_word` samples, via `weighted_choice`, exactly the
candidate distribution described by the spec: the state's transition counts
each divided by the state's total (no entries when the state is absent),
with an `*E*` entry of weight `omega_probs[state]` exactly when that weight
is positive, appended without rescaling — so the combined weights need not
sum to `1`, as the final conjunct exhibits on a concrete input. -/
theorem get_next_word_spec (state : MState) (model : MarkovModel)
    (omega_probs : List (MState × ℚ)) (r : ℚ)
    (hpos : ∀ p ∈ (dlookup state model).getD [], 0 < p.2) :
    (get_next_word state model omega_probs r =
      weighted_choice (candidate_dist state model omega_probs) r) ∧
    (dlookup state model = none →
      candidate_dist state model omega_probs =
        (if 0 < (dlookup state omega_probs).getD 0
         then [("*E*", (dlookup state omega_probs).getD 0)] else [])) ∧
    ((candidate_dist ["a"] [(["a"], [("b", 1)])] [(["a"], 1/2)]).map (fun p => p.2)).sum ≠ 1 := by
  refine ⟨?_, ?_, ?_⟩
  · have hguard : ¬((dlookup state model).getD [] ≠ [] ∧
        (((dlookup state model).getD []).map (fun p => p.2)).sum = 0) := by
      rintro ⟨hne, hzero⟩
      cases ht : (dlookup state model).getD [] with
      | nil => exact hne ht
      | cons q rest =>
          rw [ht] at hzero
          have hq : 0 < q.2 := hpos q (ht ▸ List.mem_cons_self q rest)
          simp only [List.map_cons, List.sum_cons] at hzero
          omega
    unfold get_next_word candidate_dist
    rw [if_neg hguard]
  · intro h
    unfold candidate_dist
    rw [h]
    simp [dupdate]
  · have hc : candidate_dist ["a"] [(["a"], [("b", 1)])] [(["a"], 1/2)] =
        [("b", 1), ("*E*", 1/2)] := by
      unfold candidate_dist
      simp [dlookup, dupdate]
    rw [hc]
    simp

/-- C2 witness: the theorem applied to the state `["a"]` of a one-state model
with omega probability `1/2` and drawn value `0`. -/
theorem get_next_word_spec_witness :
    (∀ p ∈ (dlookup ["a"] [(["a"], [("b", 1)])]).getD [], 0 < p.2) ∧
    get_next_word ["a"] [(["a"], [("b", 1)])] [(["a"], 1/2)] 0 =
      weighted_choice (candidate_dist ["a"] [(["a"], [("b", 1)])] [(["a"], 1/2)]) 0 :=
  ⟨by decide,
   (get_next_word_spec ["a"] [(["a"], [("b", 1)])] [(["a"], 1/2)] 0 (by decide)).1⟩

/-! ## Tokens never collide with the sentinels -/

/-- Every token the scanner emits is nonempty and starts with a letter, a
digit, or one of the listed punctuation characters. -/
theorem tokenizeAux_head_class :
    ∀ (fuel : Nat) (cs : List Char), ∀ t ∈ tokenizeAux fuel cs,
      ∃ c ts, t = c :: ts ∧ (c.isAlpha = true ∨ c.isDigit = true ∨ c ∈ punctChars) := by
  intro fuel
  induction fuel with
  | zero =>
      intro cs t ht
      exact absurd ht (List.not_mem_nil t)
  | succ fuel ih =>
      intro cs t ht
      cases cs with
      | nil => exact absurd ht (List.not_mem_nil t)
      | cons c rest =>
          simp only [tokenizeAux] at ht
          by_cases ha : c.isAlpha = true
          · rw [if_pos ha] at ht
            rcases List.mem_cons.mp ht with rfl | hmem
            · rw [List.takeWhile_cons_of_pos ha, List.cons_append]
              exact ⟨c, _, rfl, Or.inl ha⟩
            · exact ih _ t hmem
          · rw [if_neg ha] at ht
            by_cases hd : c.isDigit = true
            · rw [if_pos hd] at ht
              rcases List.mem_cons.mp ht with rfl | hmem
              · rw [List.takeWhile_cons_of_pos hd]
                exact ⟨c, _, rfl, Or.inr (Or.inl hd)⟩
              · exact ih _ t hmem
            · rw [if_neg hd] at ht
              by_cases hp : c ∈ punctChars
              · rw [if_pos hp] at ht
                rcases List.mem_cons.mp ht with rfl | hmem
                · exact ⟨c, [], rfl, Or.inr (Or.inr hp)⟩
                · exact ih _ t hmem
              · rw [if_neg hp] at ht
                exact ih _ t ht

/-- C9: no token produced by `tokenize` is ever one of the reserved sentinel
tokens `*S*` and `*E*`: every produced token starts with a letter, a digit,
or a listed punctuation character, and `*` is none of these. -/
theorem tokenize_no_sentinels (text : String) :
    "*S*" ∉ tokenize text ∧ "*E*" ∉ tokenize text := by
  have star : ∀ s : String, s ∈ tokenize text → s.data ≠ [] ∧
      ∀ c ts, s.data = c :: ts → (c.isAlpha = true ∨ c.isDigit = true ∨ c ∈ punctChars) := by
    intro s hs
    unfold tokenize at hs
    rw [List.mem_map] at hs
    obtain ⟨l, hl, rfl⟩ := hs
    obtain ⟨c, ts, rfl, hc⟩ := tokenizeAux_head_class _ _ l hl
    exact ⟨by simp, fun c2 ts2 h2 => by
      have : c2 = c := by
        have hdata : (String.mk (c :: ts)).data = c :: ts := rfl
        rw [hdata] at h2
        injection h2 with h3 _
        exact h3.symm
      rw [this]
      exact hc⟩
  constructor
  · intro hmem
    obtain ⟨-, hhead⟩ := star _ hmem
    have := hhead '*' ['S', '*'] rfl
    rcases this with h | h | h
    · exact absurd h (by decide)
    · exact absurd h (by decide)
    · exact absurd h (by decide)
  · intro hmem
    obtain ⟨-, hhead⟩ := star _ hmem
    have := hhead '*' ['E', '*'] rfl
    rcases this with h | h | h
    · exact absurd h (by decide)
    · exact absurd h (by decide)
    · exact absurd h (by decide)

/-! ## Generation is bounded by `max_words` -/

/-- The generation loop never emits more tokens than it has fuel plus
accumulator. -/
theorem genLoop_length (model : MarkovModel) (omega_probs : List (MState × ℚ)) (rs : Nat → ℚ) :
    ∀ (fuel i : Nat) (st : MState) (acc out : List String),
      genLoop model omega_probs rs fuel i st acc = some out →
      out.length ≤ fuel + acc.length := by
  intro fuel
  induction fuel with
  | zero =>
      intro i st acc out h
      rw [genLoop] at h
      injection h with h
      rw [← h, List.length_reverse]
      omega
  | succ fuel ih =>
      intro i st acc out h
      rw [genLoop] at h
      cases hg : get_next_word st model omega_probs (rs i) with
      | none => rw [hg] at h; cases h
      | some tok =>
          rw [hg] at h
          simp only at h
          by_cases he : tok = "*E*"
          · rw [if_pos he] at h
            injection h with h
            rw [← h, List.length_reverse]
            omega
          · rw [if_neg he] at h
            have hlen := ih (i + 1) (st.drop 1 ++ [tok]) (tok :: acc) out h
            rw [List.length_cons] at hlen
            omega

/-- C1: generation always terminates (the loop is the structural recursion
`genLoop` on the fuel `max_words`) and, whenever it produces an output, that
output holds at most `max_words` tokens — for every model, beta and omega
distribution, order and drawn-value stream, including models with no
end-transitions; with `max_words = 0` the produced output is the empty
sequence, and it is in fact produced whenever the beta distribution is
nonempty. -/
theorem generate_random_text_bounded (model : MarkovModel)
    (beta_probs omega_probs : List (MState × ℚ)) (order max_words : Nat) (rs : Nat → ℚ) :
    (∀ out, generate_random_text model beta_probs omega_probs order max_words rs = some out →
      out.length ≤ max_words ∧ (max_words = 0 → out = [])) ∧
    (beta_probs ≠ [] →
      generate_random_text model beta_probs omega_probs order 0 rs = some []) := by
  constructor
  · intro out h
    unfold generate_random_text at h
    cases hw : weighted_choice beta_probs (rs 0) with
    | none => rw [hw] at h; cases h
    | some st =>
        rw [hw] at h
        have hlen := genLoop_length model omega_probs rs max_words 1 st [] out h
        rw [List.length_nil] at hlen
        refine ⟨by omega, fun h0 => ?_⟩
        subst h0
        exact List.length_eq_zero.mp (by omega)
  · intro hne
    unfold generate_random_text
    cases hw : weighted_choice beta_probs (rs 0) with
    | none => exact absurd hw (weighted_choice_ne_none beta_probs (rs 0) hne)
    | some st => rfl

/-- C1 witness: the theorem applied to the empty model, a singleton beta
distribution and `max_words = 0`. -/
theorem generate_random_text_bounded_witness :
    (([(["a"], (1 : ℚ))] : List (MState × ℚ)) ≠ []) ∧
    generate_random_text [] [(["a"], (1 : ℚ))] [] 1 0 (fun _ => 0) = some [] :=
  ⟨by simp, (generate_random_text_bounded [] [(["a"], 1)] [] 1 0 (fun _ => 0)).2 (by simp)⟩

/-! ## Models built from an empty token sequence -/

/-- Taking `k` elements of `k` replicated starts (with one appended end
marker) returns the starts; the element at index `k` is the end marker. -/
theorem replicate_append_take_getD (s e : String) (k : Nat) :
    (List.replicate k s ++ [e]).take k = List.replicate k s ∧
      (List.replicate k s ++ [e]).getD k "" = e := by
  induction k with
  | zero => exact ⟨rfl, rfl⟩
  | succ k ih =>
      rw [List.replicate_succ, List.cons_append]
      exact ⟨by rw [List.take_succ_cons, ih.1], by rw [List.getD_cons_succ, ih.2]⟩

/-- Taking `k` elements of `k` replicated values returns them all. -/
theorem take_replicate_self (s : String) (k : Nat) :
    (List.replicate k s).take k = List.replicate k s := by
  induction k with
  | zero => rfl
  | succ k ih => rw [List.replicate_succ, List.take_succ_cons, ih]

/-- One generation step that draws the end marker stops with the tokens
accumulated so far. -/
theorem genLoop_end (model : MarkovModel) (omega_probs : List (MState × ℚ)) (rs : Nat → ℚ)
    (fuel i : Nat) (st : MState) (acc : List String)
    (h : get_next_word st model omega_probs (rs i) = some "*E*") :
    genLoop model omega_probs rs (fuel + 1) i st acc = some acc.reverse := by
  rw [genLoop, h]
  simp

/-- Looking up the key of a singleton association list. -/
theorem dlookup_singleton {α β : Type} [DecidableEq α] (a : α) (v : β) :
    dlookup a [(a, v)] = some v := by
  rw [dlookup, if_pos rfl]

/-- Assigning to the key of a singleton association list replaces its value. -/
theorem dupdate_singleton_same {α β : Type} [DecidableEq α] (a : α) (v w : β) :
    dupdate a v [(a, w)] = [(a, v)] := by
  rw [dupdate, if_pos rfl]

/-- C10: for every order `k ≥ 1` and input whose tokenization is empty, the
transition table has exactly one entry — `k` start markers mapping to
`{"*E*": 1}` — the beta frequencies are exactly `{that state: 1}`, and
generation from the resulting model returns the empty output for every
drawn-value stream and every `max_words`. -/
theorem empty_tokenization_model (text : String) (k max_words : Nat) (rs : Nat → ℚ)
    (htok : tokenize text = []) (hk : 1 ≤ k) :
    ngram_frequencies text k = [(List.replicate k "*S*", [("*E*", 1)])] ∧
    beta_frequencies text k = [(List.replicate k "*S*", 1)] ∧
    generate_random_text (ngram_frequencies text k)
      (beta_probabilities (beta_frequencies text k))
      (omega_probabilities (omega_frequencies (ngram_frequencies text k)))
      k max_words rs = some [] := by
  have hng : ngram_frequencies text k = [(List.replicate k "*S*", [("*E*", 1)])] := by
    unfold ngram_frequencies
    rw [htok]
    simp only [List.append_nil]
    have hlen : (List.replicate k "*S*" ++ ["*E*"]).length = k + 1 := by
      rw [List.length_append, List.length_replicate]
      rfl
    rw [hlen]
    have h1 : k + 1 - k = 1 := by omega
    have hr : List.range 1 = [0] := rfl
    rw [h1, hr, List.foldl_cons, List.foldl_nil, List.drop_zero, Nat.zero_add,
      (replicate_append_take_getD "*S*" "*E*" k).1, (replicate_append_take_getD "*S*" "*E*" k).2]
    rfl
  have hbeta : beta_frequencies text k = [(List.replicate k "*S*", 1)] := by
    simp only [beta_frequencies, htok, List.append_nil, take_replicate_self]
    rfl
  refine ⟨hng, hbeta, ?_⟩
  rw [hng, hbeta]
  have homf : omega_frequencies [(List.replicate k "*S*", [("*E*", 1)])] =
      [(List.replicate k "*S*", 1)] := by
    rw [omega_frequencies, List.map_cons, List.map_nil, dlookup_singleton]
    rfl
  have hbp : beta_probabilities [(List.replicate k "*S*", 1)] =
      [(List.replicate k "*S*", (1 : ℚ))] := by
    unfold beta_probabilities distribution_probabilities
    norm_num
  rw [homf, hbp]
  have homp : omega_probabilities [(List.replicate k "*S*", 1)] =
      [(List.replicate k "*S*", (1 : ℚ))] := by
    unfold omega_probabilities distribution_probabilities
    norm_num
  rw [homp]
  unfold generate_random_text
  rw [weighted_choice_singleton]
  cases max_words with
  | zero => rfl
  | succ m =>
      have hnext : get_next_word (List.replicate k "*S*")
          [(List.replicate k "*S*", [("*E*", 1)])]
          [(List.replicate k "*S*", (1 : ℚ))] (rs 1) = some "*E*" := by
        unfold get_next_word
        rw [dlookup_singleton, dlookup_singleton]
        simp only [Option.getD_some]
        rw [if_neg (by simp)]
        rw [if_pos (by norm_num)]
        simp only [List.map_cons, List.map_nil]
        rw [dupdate_singleton_same, weighted_choice_singleton]
      simp only
      rw [genLoop_end _ _ _ m 1 _ _ hnext]
      rfl

/-- C10 witness: the theorem applied to the empty string at order `1` with
`max_words = 5`. -/
theorem empty_tokenization_model_witness :
    tokenize "" = [] ∧ 1 ≤ 1 ∧
    generate_random_text (ngram_frequencies "" 1)
      (beta_probabilities (beta_frequencies "" 1))
      (omega_probabilities (omega_frequencies (ngram_frequencies "" 1)))
      1 5 (fun _ => 0) = some [] :=
  ⟨rfl, le_refl 1, (empty_tokenization_model "" 1 5 (fun _ => 0) rfl (le_refl 1)).2.2⟩
